import Mathlib

set_option maxRecDepth 10000

/-!
Verification development for the Cool-language lexer (src/lexer/src/main.c).

The C program is shallowly embedded: the `FILE*` byte source becomes `CFile`,
the `ReadBuffer` struct becomes a Lean structure, and every C function of the
lexer core is translated to a Lean function of the same name.  Loops are
expressed with an explicit fuel parameter (`none` = fuel exhausted, never hit
when enough fuel is supplied); a fatal `exit(code)` becomes an error value
carrying the numeric exit code.  Characters read from the source are modelled
as `Option Char` with `none` playing the role of C's `EOF` marker.
Character comparisons from the C source (`c >= 'A'` etc.) are rendered on
ASCII codes via `Char.toNat`; relevant codes are
'0' = 48, '2' = 50, '9' = 57, 'A' = 65, 'Z' = 90, '_' = 95, 'a' = 97, 'z' = 122.
-/

namespace CoolLexer

/-- `#define INPUT_FILE_BLOCK_SIZE 4096` -/
def INPUT_FILE_BLOCK_SIZE : Nat := 4096

/-- `#define LITERAL_STRING_MAX_SIZE 1024` -/
def LITERAL_STRING_MAX_SIZE : Nat := 1024

/-- `#define GENERAL_NAME_MAX_SIZE 1024` -/
def GENERAL_NAME_MAX_SIZE : Nat := 1024

/-- Model of the C `FILE*` byte source: the full byte sequence of the file
together with the current read offset. -/
structure CFile where
  bytes : List Char
  fpos : Nat
deriving DecidableEq, Repr

/-- `fgetc`: read one byte at the current offset, advancing it; at
end-of-file return `none` (EOF) and leave the offset unchanged. -/
def fgetc (f : CFile) : Option Char × CFile :=
  match f.bytes[f.fpos]? with
  | none => (none, f)
  | some c => (some c, { f with fpos := f.fpos + 1 })

/-- `fread(buf, 1, INPUT_FILE_BLOCK_SIZE, fp)`: take up to 4096 bytes from
the current offset, advancing it by the number of bytes delivered. -/
def fread_block (f : CFile) : List Char × CFile :=
  let taken := (f.bytes.drop f.fpos).take INPUT_FILE_BLOCK_SIZE
  (taken, { f with fpos := f.fpos + taken.length })

/-- The C `ReadBuffer` struct: owning file handle, the 4096-byte block
(modelled as the list of its valid bytes), cursor position, valid-byte
count and 1-based line counter.  (The `filename` field, used only for
diagnostic messages, is omitted.) -/
structure ReadBuffer where
  file : CFile
  content : List Char
  current_position : Nat
  total_size : Nat
  current_line : Nat
deriving DecidableEq, Repr

/-- `init_buffer`: fill the block with the first (up to) 4096 bytes. -/
def init_buffer (f : CFile) : ReadBuffer :=
  let r := fread_block f
  { file := r.2, content := r.1, total_size := r.1.length,
    current_position := 0, current_line := 1 }

/-- The tail of `next_char` once the block is known non-exhausted: bump the
line counter when the consumed byte is a newline, return the byte and
advance the cursor.  (Inlined in the C source; split out here so the refill
branch stays readable.) -/
def next_char_take (buf : ReadBuffer) : Option Char × ReadBuffer :=
  match buf.content[buf.current_position]? with
  | none => (none, buf)
  | some c =>
    if c = '\n' then
      (some c, { buf with current_line := buf.current_line + 1,
                          current_position := buf.current_position + 1 })
    else
      (some c, { buf with current_position := buf.current_position + 1 })

/-- `next_char`: return the next byte and consume it, refilling the block
from the file when it is exhausted; `none` (EOF) when no byte remains. -/
def next_char (buf : ReadBuffer) : Option Char × ReadBuffer :=
  if buf.current_position = buf.total_size then
    let r := fread_block buf.file
    let buf' : ReadBuffer :=
      { buf with file := r.2, content := r.1, total_size := r.1.length,
                 current_position := 0 }
    if buf'.total_size = 0 then (none, buf')
    else next_char_take buf'
  else next_char_take buf

/-- `next_char_lookup`: return the byte `next_char` would return, without
consuming.  When the block is exhausted it peeks one byte directly from the
file, saving and restoring the file position (`fgetpos`/`fgetc`/`fsetpos`);
in the EOF case the C code returns without restoring. -/
def next_char_lookup (buf : ReadBuffer) : Option Char × ReadBuffer :=
  if buf.current_position = buf.total_size then
    let old_pos := buf.file.fpos
    let r := fgetc buf.file
    match r.1 with
    | none => (none, { buf with file := r.2 })
    | some c => (some c, { buf with file := { r.2 with fpos := old_pos } })
  else
    (buf.content[buf.current_position]?, buf)

/-- `current_char_lookup`: the most recently consumed byte, without
advancing; EOF (`none`) when nothing has been consumed yet. -/
def current_char_lookup (buf : ReadBuffer) : Option Char × ReadBuffer :=
  if buf.current_position = 0 then (none, buf)
  else (buf.content[buf.current_position - 1]?, buf)

/-- `iswhitespace` from the source: space, newline, form feed, carriage
return, horizontal tab, vertical tab. -/
def iswhitespace (c : Char) : Bool :=
  decide (c = ' ' ∨ c = '\n' ∨ c = '\x0c' ∨ c = '\r' ∨ c = '\t' ∨ c = '\x0b')

/-- `isname` from the source: `isalnum(c) || c == '_'` (default C locale:
ASCII letters and digits). -/
def isname (c : Char) : Bool :=
  decide ((97 ≤ c.toNat ∧ c.toNat ≤ 122) ∨ (65 ≤ c.toNat ∧ c.toNat ≤ 90) ∨
          (48 ≤ c.toNat ∧ c.toNat ≤ 57) ∨ c = '_')

/-- `isdigit` (ctype, default C locale): `'0' ≤ c ≤ '9'`. -/
def isdigit (c : Char) : Bool :=
  decide (48 ≤ c.toNat ∧ c.toNat ≤ 57)

/-- `tolower` (ctype, default C locale): map `'A'..'Z'` to `'a'..'z'`. -/
def c_tolower (c : Char) : Char :=
  if 65 ≤ c.toNat ∧ c.toNat ≤ 90 then Char.ofNat (c.toNat + 32) else c

/-- Result of `extract_general_name`: the extracted name with the updated
buffer, or the exit code of a fatal error. -/
inductive NameRes where
  | ok (name : List Char) (buf : ReadBuffer)
  | err (code : Nat)
deriving DecidableEq, Repr

/-- Loop of `extract_general_name`.  `acc` holds the accumulated characters
in reverse, `cpos` mirrors the C `current_buffer_pos`.  Each iteration: stop
when the lookahead is not a name character, abort with exit code 3
(`LEXER_ERROR_IDENTIFIER_NAME_TOO_LONG`) once the buffer is full, otherwise
consume and append. -/
def extract_general_name_loop (fuel : Nat) (buf : ReadBuffer) (acc : List Char)
    (cpos : Nat) : Option NameRes :=
  match fuel with
  | 0 => none
  | fuel + 1 =>
    match (next_char_lookup buf).1 with
    | none => some (.ok acc.reverse buf)
    | some c =>
      if ¬ isname c then some (.ok acc.reverse buf)
      else if cpos = GENERAL_NAME_MAX_SIZE then some (.err 3)
      else extract_general_name_loop fuel (next_char buf).2 (c :: acc) (cpos + 1)

/-- `extract_general_name`: the char that triggered the call (the most
recently consumed one) is placed at position 0, then the maximal run of
name characters is accumulated.  The `none` branch is unreachable from the
driver (a character has always been consumed before the call). -/
def extract_general_name (fuel : Nat) (buf : ReadBuffer) : Option NameRes :=
  match (current_char_lookup buf).1 with
  | some c0 => extract_general_name_loop fuel buf [c0] 1
  | none => extract_general_name_loop fuel buf [] 1

/-- Result of `extract_string`: extracted text with updated buffer, or the
exit code of a fatal error. -/
inductive StrRes where
  | ok (text : List Char) (buf : ReadBuffer)
  | err (code : Nat)
deriving DecidableEq, Repr

/-- Outcome of one iteration of the `extract_string` loop. -/
inductive StrStep where
  | done (text : List Char) (buf : ReadBuffer)
  | err (code : Nat)
  | cont (acc : List Char) (cpos : Nat) (buf : ReadBuffer)
deriving DecidableEq, Repr

/-- One iteration of the `extract_string` loop body, in source order:
1. abort with exit code 4 (`LEXER_ERROR_STRING_LITERAL_TOO_LONG`) when the
   accumulator is full;
2. read `previous_char` (last consumed byte) and consume `current_char`;
3. close the string when `previous_char != '\\' && current_char == '"'`;
4. abort with exit code 8 (`LEXER_ERROR_INVALID_STRING_CHARACTER`) on a null
   byte or EOF;
5. if the lookahead is a newline: on `current_char == '\\'` consume the
   newline and continue (line continuation), otherwise abort with exit
   code 9 (`LEXER_ERROR_NON_ESCAPED_NEWLINE`);
6. otherwise append `current_char`.
`acc` holds the accumulated characters in reverse; `cpos` mirrors the C
`current_buffer_pos`. -/
def extract_string_step (buf0 : ReadBuffer) (acc : List Char) (cpos : Nat) :
    StrStep :=
  if cpos = LITERAL_STRING_MAX_SIZE then .err 4
  else
    let previous_char := (current_char_lookup buf0).1
    match next_char buf0 with
    | (none, _) => .err 8
    | (some current_char, buf) =>
      if previous_char ≠ some '\\' ∧ current_char = '"' then
        .done acc.reverse buf
      else if current_char = '\x00' then .err 8
      else if (next_char_lookup buf).1 = some '\n' then
        if current_char = '\\' then .cont acc cpos (next_char buf).2
        else .err 9
      else .cont (current_char :: acc) (cpos + 1) buf

/-- The `extract_string` loop: iterate `extract_string_step`. -/
def extract_string_loop (fuel : Nat) (buf : ReadBuffer) (acc : List Char)
    (cpos : Nat) : Option StrRes :=
  match fuel with
  | 0 => none
  | fuel + 1 =>
    match extract_string_step buf acc cpos with
    | .done text buf => some (.ok text buf)
    | .err e => some (.err e)
    | .cont acc cpos buf => extract_string_loop fuel buf acc cpos

/-- `extract_string`: called right after the opening quote was consumed. -/
def extract_string (fuel : Nat) (buf : ReadBuffer) : Option StrRes :=
  extract_string_loop fuel buf [] 0

/-- `extract_terminal`: switch on the triggering character (rendered as a
cascade of equality tests); `'<'` and `'='` use a one-character lookahead and
consume it when it completes a two-character operator.  `none` models the C
`NULL` return (unrecognized character, including the EOF value, which matches
no switch case). -/
def extract_terminal (buf : ReadBuffer) : Option (String × ReadBuffer) :=
  match (current_char_lookup buf).1 with
  | none => none
  | some t =>
    if t = '(' then some ("lparen", buf)
    else if t = ')' then some ("rparen", buf)
    else if t = '*' then some ("times", buf)
    else if t = '+' then some ("plus", buf)
    else if t = ',' then some ("comma", buf)
    else if t = '-' then some ("minus", buf)
    else if t = '.' then some ("dot", buf)
    else if t = '/' then some ("divide", buf)
    else if t = ':' then some ("colon", buf)
    else if t = ';' then some ("semi", buf)
    else if t = '<' then
      if (next_char_lookup buf).1 = some '-' then some ("larrow", (next_char buf).2)
      else if (next_char_lookup buf).1 = some '=' then some ("le", (next_char buf).2)
      else some ("lt", buf)
    else if t = '=' then
      if (next_char_lookup buf).1 = some '>' then some ("rarrow", (next_char buf).2)
      else some ("equals", buf)
    else if t = '@' then some ("at", buf)
    else if t = '{' then some ("lbrace", buf)
    else if t = '}' then some ("rbrace", buf)
    else if t = '~' then some ("tilde", buf)
    else none

/-- The fixed keyword table of `check_keyword`, in source order. -/
def keywords : List String :=
  ["class", "else", "false", "fi", "if",
   "in", "inherits", "isvoid", "let", "loop",
   "pool", "then", "while", "case", "esac",
   "new", "of", "not", "true"]

/-- `check_keyword`: lowercase the text, then return the first keyword of
the table it equals (C: `strcmp == 0`), or `none`. -/
def check_keyword (text : List Char) : Option String :=
  let text_lower := text.map c_tolower
  keywords.find? (fun k => text_lower = k.data)

/-- The conversion loop of `check_integer`, processing the characters from
last to first (hence it receives the reversed text): `num` is a `uint32_t`
accumulated modulo 2^32; `power` is the growing power of ten (an `int32_t`
in C — every value of it that the loop actually uses stays below 2^31, and
the final, possibly overflowing `power *= 10` is dead, so the 2^32 wrap
also covers the reachable signed behavior). -/
def convert_loop : List Char → Nat → Nat → Nat
  | [], num, _ => num
  | c :: rest, num, power =>
    convert_loop rest ((num + (c.toNat - 48) * power) % 4294967296)
      ((power * 10) % 4294967296)

/-- `check_integer`, in source order: reject texts longer than 10, texts
with a non-digit, 10-digit texts whose first digit exceeds `'2'` (code 50);
then convert and accept iff the value is at most `INT32_MAX`. -/
def check_integer (text : List Char) : Bool :=
  if text.length > 10 then false
  else if ¬ (text.all isdigit) then false
  else if text.length = 10 ∧ 50 < (text.headD '0').toNat then false
  else decide (convert_loop text.reverse 0 1 ≤ 2147483647)

/-- The `--` branch of `remove_comments`: a do-while that consumes bytes
through the next newline or EOF. -/
def remove_comments_line_loop (fuel : Nat) (buf : ReadBuffer) :
    Option ReadBuffer :=
  match fuel with
  | 0 => none
  | fuel + 1 =>
    let r := next_char buf
    match r.1 with
    | none => some r.2
    | some c => if c = '\n' then some r.2 else remove_comments_line_loop fuel r.2

/-- The `(*` branch of `remove_comments`: while the running character is not
EOF, stop as soon as it is `'*'` with lookahead `')'`, else consume. -/
def remove_comments_block_loop (fuel : Nat) (current : Option Char)
    (buf : ReadBuffer) : Option ReadBuffer :=
  match fuel with
  | 0 => none
  | fuel + 1 =>
    match current with
    | none => some buf
    | some c =>
      if c = '*' ∧ (next_char_lookup buf).1 = some ')' then some buf
      else
        let r := next_char buf
        remove_comments_block_loop fuel r.1 r.2

/-- `remove_comments`: re-read the triggering character; on `--` consume the
line; on `(*` run the block loop and then consume one more byte (the `')'`
of the closer, or a no-op at EOF); report whether a comment was elided. -/
def remove_comments (fuel : Nat) (buf : ReadBuffer) : Option (Bool × ReadBuffer) :=
  let current := (current_char_lookup buf).1
  if current = some '-' ∧ (next_char_lookup buf).1 = some '-' then
    match remove_comments_line_loop fuel buf with
    | none => none
    | some buf => some (true, buf)
  else if current = some '(' ∧ (next_char_lookup buf).1 = some '*' then
    match remove_comments_block_loop fuel current buf with
    | none => none
    | some buf => some (true, (next_char buf).2)
  else some (false, buf)

/-- The classified payload of an emitted token, mirroring what the driver
writes to the sidecar file. -/
inductive TokenData where
  | str (text : List Char)
  | terminal (name : String)
  | integer (text : List Char)
  | keyword (name : String)
  | typeId (text : List Char)
  | identifier (text : List Char)
deriving DecidableEq, Repr

/-- An emitted token: the line number printed before it, plus its payload. -/
structure Token where
  line : Nat
  data : TokenData
deriving DecidableEq, Repr

/-- The classification cascade of the driver on a completed name buffer
(`lexer`, lines 452-494): digit-initial texts go to `check_integer` (exit
code 5, `LEXER_ERROR_WRONG_INTEGER32_FORMAT`, on rejection); then
`check_keyword` — on a match, the condition
`strcmp(keyword, "true") || strcmp(keyword, "false")` guards the
capital-letter check that aborts with exit code 6
(`LEXER_ERROR_UPPERCASE_BOOLEAN_KEYWORD`); then a capitalized first letter
makes a type identifier, anything else a plain identifier. -/
def classify_name (name : List Char) : Except Nat TokenData :=
  if isdigit (name.headD ' ') then
    if check_integer name then .ok (.integer name) else .error 5
  else
    match check_keyword name with
    | some kw =>
      if (kw ≠ "true" ∨ kw ≠ "false") ∧
         (65 ≤ (name.headD ' ').toNat ∧ (name.headD ' ').toNat ≤ 90) then
        .error 6
      else .ok (.keyword kw)
    | none =>
      if 65 ≤ (name.headD ' ').toNat ∧ (name.headD ' ').toNat ≤ 90 then
        .ok (.typeId name)
      else .ok (.identifier name)

/-- Result of a whole scan: the emitted token list, or a fatal exit code. -/
inductive LexRes where
  | ok (toks : List Token)
  | err (code : Nat)
deriving DecidableEq, Repr

/-- The scanner driver loop of `lexer`: consume a byte; stop at EOF; skip
whitespace; elide comments; otherwise record the current line, dispatch on
the byte (string / terminal / name) and emit the token.  `acc` collects the
emitted tokens in reverse. -/
def lexer_loop (fuel : Nat) (buf : ReadBuffer) (acc : List Token) :
    Option LexRes :=
  match fuel with
  | 0 => none
  | fuel + 1 =>
    match next_char buf with
    | (none, _) => some (.ok acc.reverse)
    | (some current_char, buf) =>
      if iswhitespace current_char then lexer_loop fuel buf acc
      else
        match remove_comments fuel buf with
        | none => none
        | some (true, buf) => lexer_loop fuel buf acc
        | some (false, buf) =>
          let line := buf.current_line
          if current_char = '"' then
            match extract_string_loop fuel buf [] 0 with
            | none => none
            | some (.err e) => some (.err e)
            | some (.ok text buf) =>
              lexer_loop fuel buf ({ line := line, data := .str text } :: acc)
          else if ¬ isname current_char then
            match extract_terminal buf with
            | none => some (.err 7)
            | some (name, buf) =>
              lexer_loop fuel buf ({ line := line, data := .terminal name } :: acc)
          else
            match extract_general_name fuel buf with
            | none => none
            | some (.err e) => some (.err e)
            | some (.ok name buf) =>
              match classify_name name with
              | .error e => some (.err e)
              | .ok d => lexer_loop fuel buf ({ line := line, data := d } :: acc)

/-- Run the lexer on a complete input byte sequence. -/
def lexer_run (input : List Char) (fuel : Nat) : Option LexRes :=
  lexer_loop fuel (init_buffer { bytes := input, fpos := 0 }) []

/-- A `ReadBuffer` whose block holds the whole input and whose file is fully
drained — exactly the state `init_buffer` produces for inputs of at most
4096 bytes, parametrized by cursor position and line counter. -/
def simpleBuf (input : List Char) (pos line : Nat) : ReadBuffer :=
  { file := { bytes := input, fpos := input.length }, content := input,
    current_position := pos, total_size := input.length, current_line := line }

/-- The buffer state after `next_char` observes EOF on a `simpleBuf`: the
refill delivered zero bytes. -/
def emptyBuf (input : List Char) (line : Nat) : ReadBuffer :=
  { file := { bytes := input, fpos := input.length }, content := [],
    current_position := 0, total_size := 0, current_line := line }

/-- A character that is inert inside a string literal: not a backslash,
newline, null byte or double quote. -/
def plainChar (c : Char) : Bool :=
  decide (c ≠ '\\' ∧ c ≠ '\n' ∧ c ≠ '\x00' ∧ c ≠ '"')

/-- A string-literal content made only of inert characters. -/
def plainStr (s : List Char) : Bool := s.all plainChar

/-- Whether a character sequence contains an adjacent pair `'*'`, `')'` —
the pattern the block-comment loop of `remove_comments` stops on. -/
def hasCloser : List Char → Bool
  | x :: y :: rest => (decide (x = '*' ∧ y = ')')) || hasCloser (y :: rest)
  | _ => false

/-- The mathematical decimal value denoted by a digit string (most
significant digit first) — the value the spec's integer rule refers to. -/
def decimalValue (s : List Char) : Nat :=
  s.foldl (fun acc c => 10 * acc + (c.toNat - 48)) 0

/-- Positional value of a digit string given least significant digit first;
used to relate `convert_loop` (which runs over the reversed text) to
`decimalValue`. -/
def valRev : List Char → Nat
  | [] => 0
  | c :: rs => (c.toNat - 48) + 10 * valRev rs

theorem getElem?_lt {α : Type} {l : List α} {i : Nat} {x : α} (h : l[i]? = some x) :
    i < l.length := by
  induction l generalizing i with
  | nil => simp at h
  | cons a t ih =>
    cases i with
    | zero => simp
    | succ j =>
      simp only [List.getElem?_cons_succ] at h
      exact Nat.succ_lt_succ (ih h)

theorem getElem?_mem {α : Type} {l : List α} {i : Nat} {x : α}
    (h : l[i]? = some x) : x ∈ l := by
  induction l generalizing i with
  | nil => simp at h
  | cons a t ih =>
    cases i with
    | zero => simp_all
    | succ j =>
      simp only [List.getElem?_cons_succ] at h
      exact List.mem_cons_of_mem a (ih h)

theorem get_append_cons {α : Type} (pre tail : List α) (c : α) :
    (pre ++ c :: tail)[pre.length]? = some c := by
  induction pre with
  | nil => simp
  | cons a t ih => simpa using ih

theorem get_append_cons_succ {α : Type} (pre tail : List α) (c : α) :
    (pre ++ c :: tail)[pre.length + 1]? = tail[0]? := by
  induction pre with
  | nil => simp
  | cons a t ih =>
    simp only [List.cons_append, List.length_cons, List.getElem?_cons_succ]
    exact ih

theorem get_append_lt {α : Type} (pre tail : List α) (i : Nat) (h : i < pre.length) :
    (pre ++ tail)[i]? = pre[i]? := by
  induction pre generalizing i with
  | nil => simp at h
  | cons a t ih =>
    cases i with
    | zero => simp
    | succ j =>
      simp only [List.cons_append, List.getElem?_cons_succ]
      exact ih j (Nat.lt_of_succ_lt_succ h)

theorem next_char_simpleBuf {input : List Char} {pos : Nat} {c : Char} (line : Nat)
    (h : input[pos]? = some c) :
    next_char (simpleBuf input pos line) =
      (some c, simpleBuf input (pos + 1) (if c = '\n' then line + 1 else line)) := by
  have hne : pos ≠ input.length := Nat.ne_of_lt (getElem?_lt h)
  simp only [next_char, simpleBuf, next_char_take, hne, if_false, h]
  split <;> simp_all

theorem next_char_simpleBuf_end (input : List Char) (line : Nat) :
    next_char (simpleBuf input input.length line) = (none, emptyBuf input line) := by
  simp [next_char, simpleBuf, fread_block, emptyBuf]

theorem next_char_emptyBuf (input : List Char) (line : Nat) :
    next_char (emptyBuf input line) = (none, emptyBuf input line) := by
  simp [next_char, emptyBuf, fread_block]

theorem next_char_lookup_simpleBuf (input : List Char) (pos line : Nat) :
    next_char_lookup (simpleBuf input pos line) = (input[pos]?, simpleBuf input pos line) := by
  by_cases hpos : pos = input.length
  · subst hpos
    simp [next_char_lookup, simpleBuf, fgetc]
  · simp [next_char_lookup, simpleBuf, hpos]

theorem current_char_lookup_simpleBuf (input : List Char) (pos line : Nat) (h : pos ≠ 0) :
    current_char_lookup (simpleBuf input pos line) =
      (input[pos - 1]?, simpleBuf input pos line) := by
  simp [current_char_lookup, simpleBuf, h]

/-- C9: for every `SourceStream` state, `next_char_lookup` (peekNext) and
`current_char_lookup` (peekCurrent) leave the cursor position, the valid-byte
count and the line counter unchanged — including the branch in which
`next_char_lookup` fetches one byte past the exhausted block directly from the
underlying source (`current_position = total_size`): the quantification over
all buffer states covers that branch.  `current_char_lookup` returns the whole
state unchanged. -/
theorem C9_peek_frame (buf : ReadBuffer) :
    ((next_char_lookup buf).2.current_position = buf.current_position ∧
     (next_char_lookup buf).2.total_size = buf.total_size ∧
     (next_char_lookup buf).2.current_line = buf.current_line) ∧
    (current_char_lookup buf).2 = buf := by
  constructor
  · simp only [next_char_lookup]
    split
    · cases h : (fgetc buf.file).1 <;> simp [h]
    · simp
  · simp only [current_char_lookup]
    split <;> simp

/-- C8: terminal extraction on trigger `'<'` emits `larrow` and consumes the
lookahead when it is `'-'`, emits `le` and consumes when it is `'='`, and
otherwise emits `lt` consuming nothing; on trigger `'='` it emits `rarrow`
and consumes when the lookahead is `'>'`, otherwise `equals` consuming
nothing. -/
theorem C8_terminal_lookahead (input : List Char) (pos line : Nat) (h0 : pos ≠ 0) :
    ((input[pos - 1]? = some '<') →
      ((input[pos]? = some '-' →
         extract_terminal (simpleBuf input pos line) =
           some ("larrow", simpleBuf input (pos + 1) line)) ∧
       (input[pos]? = some '=' →
         extract_terminal (simpleBuf input pos line) =
           some ("le", simpleBuf input (pos + 1) line)) ∧
       (input[pos]? ≠ some '-' → input[pos]? ≠ some '=' →
         extract_terminal (simpleBuf input pos line) =
           some ("lt", simpleBuf input pos line)))) ∧
    ((input[pos - 1]? = some '=') →
      ((input[pos]? = some '>' →
         extract_terminal (simpleBuf input pos line) =
           some ("rarrow", simpleBuf input (pos + 1) line)) ∧
       (input[pos]? ≠ some '>' →
         extract_terminal (simpleBuf input pos line) =
           some ("equals", simpleBuf input pos line)))) := by
  constructor
  · intro hc
    refine ⟨?_, ?_, ?_⟩
    · intro hd
      simp only [extract_terminal, current_char_lookup_simpleBuf input pos line h0, hc,
        next_char_lookup_simpleBuf, hd, next_char_simpleBuf line hd]
      rfl
    · intro hd
      simp only [extract_terminal, current_char_lookup_simpleBuf input pos line h0, hc,
        next_char_lookup_simpleBuf, hd, next_char_simpleBuf line hd]
      rfl
    · intro hd1 hd2
      simp only [extract_terminal, current_char_lookup_simpleBuf input pos line h0, hc,
        next_char_lookup_simpleBuf]
      rw [if_neg hd1, if_neg hd2]
      rfl
  · intro hc
    constructor
    · intro hd
      simp only [extract_terminal, current_char_lookup_simpleBuf input pos line h0, hc,
        next_char_lookup_simpleBuf, hd, next_char_simpleBuf line hd]
      rfl
    · intro hd1
      simp only [extract_terminal, current_char_lookup_simpleBuf input pos line h0, hc,
        next_char_lookup_simpleBuf]
      rw [if_neg hd1]
      rfl

theorem C8_terminal_lookahead_witness :
    extract_terminal (simpleBuf ['<', '-'] 1 1) =
      some ("larrow", simpleBuf ['<', '-'] 2 1) ∧
    extract_terminal (simpleBuf ['<', '='] 1 1) =
      some ("le", simpleBuf ['<', '='] 2 1) ∧
    extract_terminal (simpleBuf ['<', 'a'] 1 1) =
      some ("lt", simpleBuf ['<', 'a'] 1 1) ∧
    extract_terminal (simpleBuf ['=', '>'] 1 1) =
      some ("rarrow", simpleBuf ['=', '>'] 2 1) ∧
    extract_terminal (simpleBuf ['='] 1 1) =
      some ("equals", simpleBuf ['='] 1 1) := by
  refine ⟨?_, ?_, ?_, ?_, ?_⟩
  · exact ((C8_terminal_lookahead ['<', '-'] 1 1 (by decide)).1 (by decide)).1 (by decide)
  · exact ((C8_terminal_lookahead ['<', '='] 1 1 (by decide)).1 (by decide)).2.1 (by decide)
  · exact ((C8_terminal_lookahead ['<', 'a'] 1 1 (by decide)).1 (by decide)).2.2
      (by decide) (by decide)
  · exact ((C8_terminal_lookahead ['=', '>'] 1 1 (by decide)).2 (by decide)).1 (by decide)
  · exact ((C8_terminal_lookahead ['='] 1 1 (by decide)).2 (by decide)).2 (by decide)

/-- C10: the three-character input `(*)` is consumed as one complete block
comment — the `'*'` of the opener also satisfies the closer test, so the
following `')'` is consumed as the closer — with no error and no token
emitted for these three characters; scanning resumes after it (an `x`
appended after the comment is still tokenized). -/
theorem C10_opener_star_doubles_as_closer :
    lexer_run ['(', '*', ')'] 10 = some (.ok []) ∧
    lexer_run ['(', '*', ')', 'x'] 10 =
      some (.ok [{ line := 1, data := .identifier ['x'] }]) := by
  constructor <;> rfl

/-- Input of claim C3: the string literal `"a\"b"`. -/
def inputC3 : List Char := ['"', 'a', '\\', '"', 'b', '"']

/-- C3 counterexample: on the input string literal `"a\"b"` the scanner does
NOT emit a string token with text `a"b` — the token it emits has text
`a\"b`, the backslash included — refuting the claim that the backslash is
not part of the token text. -/
theorem C3_counterexample :
    lexer_run inputC3 12 ≠ some (.ok [{ line := 1, data := .str ['a', '"', 'b'] }]) ∧
    lexer_run inputC3 12 = some (.ok [{ line := 1, data := .str ['a', '\\', '"', 'b'] }]) := by
  exact ⟨by decide, rfl⟩

/-- C3 (amended): for the input string literal `"a\"b"`, the scanner does not
terminate the literal at the escaped quote and emits a string token whose
text is exactly `a\"b` — both the backslash and the quote are part of the
token text. -/
theorem C3_escaped_quote_kept :
    lexer_run inputC3 12 =
      some (.ok [{ line := 1, data := .str ['a', '\\', '"', 'b'] }]) := rfl

/-- C5 counterexample: the string literal `"\nx"` contains a newline that is
not immediately preceded by a backslash and sits before the closing quote,
yet extraction does not exit with code 9 — the newline is the first content
character, so it is only ever seen as the consumed character (never as
lookahead) and is appended silently; the scan succeeds with text `\nx`. -/
theorem C5_counterexample :
    lexer_run ['"', '\n', 'x', '"'] 12 =
      some (.ok [{ line := 1, data := .str ['\n', 'x'] }]) ∧
    lexer_run ['"', '\n', 'x', '"'] 12 ≠ some (.err 9) := by
  exact ⟨rfl, by decide⟩

/-- C5 (amended): the newline rule is applied to the lookahead character:
whenever the character following the just-consumed character `c` is a
newline, extraction exits fatally with code 9 unless `c` is a backslash, in
which case the newline is consumed, excluded from the literal text, and
scanning continues on the next line (line counter incremented).  A newline
that is itself the consumed character without having been seen as lookahead
(first content character, or first character after a line continuation) is
appended to the literal silently. -/
theorem C5_newline_lookahead (input : List Char) (pos line cpos : Nat)
    (acc : List Char) (c : Char) (hcap : cpos < 1024) (hc : input[pos]? = some c) :
    (c ≠ '"' → c ≠ '\x00' → c ≠ '\\' → input[pos + 1]? = some '\n' →
       extract_string_step (simpleBuf input pos line) acc cpos = .err 9) ∧
    (c = '\\' → input[pos + 1]? = some '\n' →
       extract_string_step (simpleBuf input pos line) acc cpos =
         .cont acc cpos (simpleBuf input (pos + 2) (line + 1))) ∧
    (c = '\n' → input[pos + 1]? ≠ some '\n' →
       extract_string_step (simpleBuf input pos line) acc cpos =
         .cont ('\n' :: acc) (cpos + 1) (simpleBuf input (pos + 1) (line + 1))) := by
  have hcap' : cpos ≠ 1024 := Nat.ne_of_lt hcap
  refine ⟨?_, ?_, ?_⟩
  · intro hq hz hb hn
    simp only [extract_string_step, LITERAL_STRING_MAX_SIZE,
      next_char_simpleBuf line hc, next_char_lookup_simpleBuf]
    simp [hcap', hq, hz, hb, hn]
  · intro hb hn
    subst hb
    simp only [extract_string_step, LITERAL_STRING_MAX_SIZE,
      next_char_simpleBuf line hc, next_char_lookup_simpleBuf]
    simp [hcap', hn, next_char_simpleBuf line hn]
  · intro hnl hn
    subst hnl
    simp only [extract_string_step, LITERAL_STRING_MAX_SIZE,
      next_char_simpleBuf line hc, next_char_lookup_simpleBuf]
    simp [hcap', hn]

theorem check_keyword_spec {name : List Char} {kw : String}
    (h : check_keyword name = some kw) :
    kw ∈ keywords ∧ name.map c_tolower = kw.data := by
  unfold check_keyword at h
  refine ⟨List.mem_of_find?_eq_some h, ?_⟩
  have := List.find?_some h
  simpa using this

theorem keywords_head_lower : ∀ kw ∈ keywords,
    97 ≤ (kw.data.headD 'a').toNat ∧ (kw.data.headD 'a').toNat ≤ 122 ∧ kw.data ≠ [] := by
  decide

theorem check_keyword_head_not_digit {name : List Char} {kw : String}
    (h : check_keyword name = some kw) : isdigit (name.headD ' ') = false := by
  obtain ⟨hmem, hmap⟩ := check_keyword_spec h
  obtain ⟨h97, _, hne⟩ := keywords_head_lower kw hmem
  cases name with
  | nil =>
    rw [List.map_nil] at hmap
    exact absurd hmap.symm hne
  | cons c0 rest =>
    have hhead : kw.data.headD 'a' = c_tolower c0 := by
      rw [← hmap]; simp
    rw [List.headD_cons]
    cases hdg : isdigit c0 with
    | false => rfl
    | true =>
      exfalso
      have hd : 48 ≤ c0.toNat ∧ c0.toNat ≤ 57 := by
        simpa [isdigit] using hdg
      have hlow : c_tolower c0 = c0 := by
        rw [c_tolower, if_neg (by omega)]
      rw [hlow] at hhead
      have := congrArg Char.toNat hhead
      omega

/-- C1: for every extracted name that matches one of the 19 keywords
case-insensitively (the hypothesis quantifies over all keywords, not only the
boolean literals), the classification cascade aborts fatally with exit code 6
when the first character of the lexeme is an uppercase letter, and otherwise
emits the canonical lowercase keyword token — the guarding condition
`strcmp(keyword, "true") || strcmp(keyword, "false")` is true for every
keyword, so the capitalization rule applies to all of them. -/
theorem C1_keyword_capitalization (name : List Char) (kw : String)
    (h : check_keyword name = some kw) :
    ((65 ≤ (name.headD ' ').toNat ∧ (name.headD ' ').toNat ≤ 90) →
       classify_name name = .error 6) ∧
    (¬ (65 ≤ (name.headD ' ').toNat ∧ (name.headD ' ').toNat ≤ 90) →
       classify_name name = .ok (.keyword kw)) := by
  have hnd := check_keyword_head_not_digit h
  have htf : kw ≠ "true" ∨ kw ≠ "false" := by
    by_cases ht : kw = "true"
    · right; rw [ht]; decide
    · left; exact ht
  have hnd' : (isdigit (name.headD ' ') = true) = False := by rw [hnd]; simp
  constructor
  · intro hup
    simp only [classify_name, hnd', if_false, h]
    rw [if_pos ⟨htf, hup⟩]
  · intro hup
    simp only [classify_name, hnd', if_false, h]
    rw [if_neg (fun hcon => hup hcon.2)]

theorem C1_keyword_capitalization_witness :
    classify_name ['C', 'l', 'a', 's', 's'] = .error 6 ∧
    classify_name ['c', 'L', 'A', 'S', 's'] = .ok (.keyword "class") := by
  constructor
  · exact (C1_keyword_capitalization ['C', 'l', 'a', 's', 's'] "class" (by decide)).1
      (by decide)
  · exact (C1_keyword_capitalization ['c', 'L', 'A', 'S', 's'] "class" (by decide)).2
      (by decide)

theorem decimalValue_foldl (s : List Char) (a : Nat) :
    s.foldl (fun acc c => 10 * acc + (c.toNat - 48)) a =
      a * 10 ^ s.length + decimalValue s := by
  induction s generalizing a with
  | nil => simp [decimalValue]
  | cons c t ih =>
    simp only [List.foldl_cons, decimalValue, List.length_cons]
    rw [ih (10 * a + (c.toNat - 48)), ih (10 * 0 + (c.toNat - 48))]
    ring

theorem decimalValue_cons (c : Char) (t : List Char) :
    decimalValue (c :: t) = (c.toNat - 48) * 10 ^ t.length + decimalValue t := by
  have h := decimalValue_foldl t (10 * 0 + (c.toNat - 48))
  simpa [decimalValue] using h

theorem valRev_nil : valRev [] = 0 := rfl

theorem valRev_cons (c : Char) (rs : List Char) :
    valRev (c :: rs) = (c.toNat - 48) + 10 * valRev rs := rfl

theorem valRev_append_singleton (xs : List Char) (c : Char) :
    valRev (xs ++ [c]) = valRev xs + (c.toNat - 48) * 10 ^ xs.length := by
  induction xs with
  | nil => simp [valRev]
  | cons a t ih =>
    show valRev (a :: (t ++ [c])) = valRev (a :: t) + (c.toNat - 48) * 10 ^ (a :: t).length
    rw [valRev_cons, ih, valRev_cons, List.length_cons, pow_succ]
    ring

theorem valRev_reverse (s : List Char) : valRev s.reverse = decimalValue s := by
  induction s with
  | nil => simp [valRev, decimalValue]
  | cons c t ih =>
    rw [List.reverse_cons, valRev_append_singleton, ih, List.length_reverse,
      decimalValue_cons]
    omega

theorem decimalValue_lt (s : List Char) (h : s.all isdigit = true) :
    decimalValue s < 10 ^ s.length := by
  induction s with
  | nil => simp [decimalValue]
  | cons c t ih =>
    simp only [List.all_cons, Bool.and_eq_true] at h
    have hd : c.toNat - 48 ≤ 9 := by
      have h1 := h.1
      simp [isdigit] at h1
      omega
    have ht := ih h.2
    rw [decimalValue_cons, List.length_cons, pow_succ]
    calc (c.toNat - 48) * 10 ^ t.length + decimalValue t
        < (c.toNat - 48) * 10 ^ t.length + 10 ^ t.length := by omega
      _ = (c.toNat - 48 + 1) * 10 ^ t.length := by ring
      _ ≤ 10 * 10 ^ t.length := Nat.mul_le_mul_right _ (by omega)
      _ = 10 ^ t.length * 10 := by ring

theorem convert_loop_nil (num power : Nat) : convert_loop [] num power = num := rfl

theorem convert_loop_cons (c : Char) (rest : List Char) (num power : Nat) :
    convert_loop (c :: rest) num power =
      convert_loop rest ((num + (c.toNat - 48) * power) % 4294967296)
        ((power * 10) % 4294967296) := rfl

theorem convert_loop_exact : ∀ (rs : List Char) (num power : Nat),
    num + power * valRev rs < 4294967296 →
    (rs ≠ [] → power * 10 ^ (rs.length - 1) < 4294967296) →
    convert_loop rs num power = num + power * valRev rs := by
  intro rs
  induction rs with
  | nil =>
    intro num power _ _
    rw [convert_loop_nil, valRev_nil]
    ring
  | cons c rest ih =>
    intro num power h1 h2
    have hexp : power * valRev (c :: rest) =
        (c.toNat - 48) * power + (power * 10) * valRev rest := by
      rw [valRev_cons]
      ring
    have h1' : num + (c.toNat - 48) * power < 4294967296 := by
      refine Nat.lt_of_le_of_lt ?_ h1
      rw [hexp, ← Nat.add_assoc]
      exact Nat.le_add_right _ _
    have hmod : (num + (c.toNat - 48) * power) % 4294967296 =
        num + (c.toNat - 48) * power := Nat.mod_eq_of_lt h1'
    cases rest with
    | nil =>
      rw [convert_loop_cons, convert_loop_nil, hmod, valRev_cons, valRev_nil]
      ring
    | cons r rest' =>
      have hp10 : power * 10 < 4294967296 := by
        have hrec := h2 (by simp)
        simp only [List.length_cons, Nat.add_sub_cancel] at hrec
        refine Nat.lt_of_le_of_lt ?_ hrec
        apply Nat.mul_le_mul_left
        calc (10:Nat) = 10 ^ 1 := by norm_num
          _ ≤ 10 ^ (rest'.length + 1) := Nat.pow_le_pow_right (by norm_num) (by omega)
      rw [convert_loop_cons, hmod, Nat.mod_eq_of_lt hp10,
        ih (num + (c.toNat - 48) * power) (power * 10) ?_ ?_]
      · rw [hexp]; ring
      · have heq : num + (c.toNat - 48) * power + (power * 10) * valRev (r :: rest') =
            num + power * valRev (c :: r :: rest') := by
          rw [hexp]; ring
        rw [heq]; exact h1
      · intro _
        have heq : power * 10 * 10 ^ ((r :: rest').length - 1) =
            power * 10 ^ ((c :: r :: rest').length - 1) := by
          simp only [List.length_cons, Nat.add_sub_cancel, pow_succ]
          ring
        rw [heq]
        exact h2 (by simp)

theorem convert_eq_decimalValue {s : List Char} (hlen : s.length ≤ 10)
    (hdig : s.all isdigit = true)
    (hfirst : s.length < 10 ∨ (s.headD '0').toNat ≤ 50) :
    convert_loop s.reverse 0 1 = decimalValue s ∧ decimalValue s < 4294967296 := by
  have hbound : decimalValue s < 4294967296 := by
    by_cases h9 : s.length ≤ 9
    · have h1 := decimalValue_lt s hdig
      have h10 : (10:Nat) ^ s.length ≤ 10 ^ 9 :=
        Nat.pow_le_pow_right (by norm_num) h9
      have h9v : (10:Nat) ^ 9 = 1000000000 := by norm_num
      rw [h9v] at h10
      omega
    · have hlen10 : s.length = 10 := by omega
      have hfirst' : (s.headD '0').toNat ≤ 50 := by
        rcases hfirst with h | h
        · omega
        · exact h
      cases s with
      | nil => simp at hlen10
      | cons c t =>
        have htl : t.length = 9 := by simpa using hlen10
        simp only [List.all_cons, Bool.and_eq_true] at hdig
        have ht := decimalValue_lt t hdig.2
        have h9v : (10:Nat) ^ t.length = 1000000000 := by rw [htl]; norm_num
        rw [h9v] at ht
        rw [decimalValue_cons, h9v]
        have hc : c.toNat - 48 ≤ 2 := by
          simp only [List.headD_cons] at hfirst'
          omega
        have hm : (c.toNat - 48) * 1000000000 ≤ 2 * 1000000000 :=
          Nat.mul_le_mul_right _ hc
        omega
  refine ⟨?_, hbound⟩
  have h1 : (0:Nat) + 1 * valRev s.reverse < 4294967296 := by
    simpa [valRev_reverse] using hbound
  have h2 : s.reverse ≠ [] → 1 * 10 ^ (s.reverse.length - 1) < 4294967296 := by
    intro _
    have hle : s.reverse.length - 1 ≤ 9 := by
      rw [List.length_reverse]; omega
    have h10 : (10:Nat) ^ (s.reverse.length - 1) ≤ 10 ^ 9 :=
      Nat.pow_le_pow_right (by norm_num) hle
    have h9v : (10:Nat) ^ 9 = 1000000000 := by norm_num
    rw [h9v] at h10
    omega
  have hfin := convert_loop_exact s.reverse 0 1 h1 h2
  rw [valRev_reverse] at hfin
  simpa using hfin

/-- C2: the integer validator accepts a character string iff it has at most
10 characters, all of them decimal digits, its first character is at most
`'2'` (code 50) when it is exactly 10 characters long, and the decimal value
it denotes is at most 2147483647; a digit-initial lexeme that the validator
rejects makes the classification cascade abort fatally with exit code 5. -/
theorem C2_integer_validator :
    (∀ s : List Char, check_integer s = true ↔
       (s.length ≤ 10 ∧ s.all isdigit = true ∧
        (s.length < 10 ∨ (s.headD '0').toNat ≤ 50) ∧
        decimalValue s ≤ 2147483647)) ∧
    (∀ name : List Char, isdigit (name.headD ' ') = true →
       check_integer name = false → classify_name name = .error 5) := by
  constructor
  · intro s
    constructor
    · intro h
      unfold check_integer at h
      split at h
      · exact absurd h (by simp)
      · split at h
        · exact absurd h (by simp)
        · split at h
          · exact absurd h (by simp)
          · rename_i hlen hdig hfirst
            have hlen' : s.length ≤ 10 := by omega
            have hdig' : s.all isdigit = true := by
              by_contra hc
              exact hdig hc
            have hfirst' : s.length < 10 ∨ (s.headD '0').toNat ≤ 50 := by
              by_cases hl : s.length = 10
              · right
                by_contra hc
                exact hfirst ⟨hl, by omega⟩
              · left; omega
            obtain ⟨hconv, _⟩ := convert_eq_decimalValue hlen' hdig' hfirst'
            rw [hconv] at h
            exact ⟨hlen', hdig', hfirst', of_decide_eq_true h⟩
    · rintro ⟨hlen, hdig, hfirst, hval⟩
      obtain ⟨hconv, _⟩ := convert_eq_decimalValue hlen hdig hfirst
      unfold check_integer
      rw [if_neg (by omega), if_neg (by simp [hdig]), if_neg ?_, hconv]
      · exact decide_eq_true hval
      · rintro ⟨hl, hc⟩
        rcases hfirst with h | h
        · omega
        · omega
  · intro name hd hf
    have hd' : (isdigit (name.headD ' ') = true) = True := by rw [hd]; simp
    have hf' : (check_integer name = true) = False := by rw [hf]; simp
    simp only [classify_name, hd', if_true, hf', if_false]

theorem C2_integer_validator_witness :
    check_integer ['4', '2'] = true ∧
    classify_name ['2', '1', '4', '7', '4', '8', '3', '6', '4', '8'] = .error 5 := by
  constructor
  · exact (C2_integer_validator.1 ['4', '2']).mpr (by decide)
  · exact C2_integer_validator.2 ['2', '1', '4', '7', '4', '8', '3', '6', '4', '8']
      (by decide) (by decide)

theorem getElem?_self_len {α : Type} (l : List α) : l[l.length]? = none := by
  induction l with
  | nil => rfl
  | cons a t ih =>
    simp only [List.length_cons, List.getElem?_cons_succ]
    exact ih

theorem plainStr_get {s : List Char} {i : Nat} {x : Char}
    (hp : plainStr s = true) (h : s[i]? = some x) : plainChar x = true := by
  rw [plainStr, List.all_eq_true] at hp
  exact hp x (getElem?_mem h)

theorem extract_string_loop_succ (fuel : Nat) (buf : ReadBuffer) (acc : List Char)
    (cpos : Nat) :
    extract_string_loop (fuel + 1) buf acc cpos =
      match extract_string_step buf acc cpos with
      | .done text buf => some (.ok text buf)
      | .err e => some (.err e)
      | .cont acc cpos buf => extract_string_loop fuel buf acc cpos := rfl

theorem extract_string_loop_cont (fuel : Nat) {buf0 buf : ReadBuffer}
    {acc0 acc : List Char} {cpos0 cpos : Nat}
    (h : extract_string_step buf0 acc0 cpos0 = .cont acc cpos buf) :
    extract_string_loop (fuel + 1) buf0 acc0 cpos0 =
      extract_string_loop fuel buf acc cpos := by
  rw [extract_string_loop_succ, h]

theorem extract_string_loop_done (fuel : Nat) {buf0 buf : ReadBuffer}
    {acc text : List Char} {cpos : Nat}
    (h : extract_string_step buf0 acc cpos = .done text buf) :
    extract_string_loop (fuel + 1) buf0 acc cpos = some (.ok text buf) := by
  rw [extract_string_loop_succ, h]

theorem extract_string_loop_err (fuel : Nat) {buf0 : ReadBuffer} {acc : List Char}
    {cpos e : Nat} (h : extract_string_step buf0 acc cpos = .err e) :
    extract_string_loop (fuel + 1) buf0 acc cpos = some (.err e) := by
  rw [extract_string_loop_succ, h]

/-- Running the `extract_string` loop over a stretch of inert content
characters appends them all (in reverse, onto the accumulator), advances the
cursor past them, touches neither the line counter nor anything else, and
continues — provided the character right after the stretch is not a newline
(it would be seen by the lookahead) and the accumulator does not fill up
strictly before the end of the stretch. -/
theorem extract_string_consume_plain :
    ∀ (content pre rest acc : List Char) (cpos line fuel : Nat),
      plainStr content = true →
      rest[0]? ≠ some '\n' →
      cpos + content.length ≤ 1024 →
      extract_string_loop (fuel + content.length)
          (simpleBuf (pre ++ content ++ rest) pre.length line) acc cpos =
        extract_string_loop fuel
          (simpleBuf (pre ++ content ++ rest) (pre.length + content.length) line)
          (content.reverse ++ acc) (cpos + content.length) := by
  intro content
  induction content with
  | nil =>
    intro pre rest acc cpos line fuel _ _ _
    simp
  | cons c ct ih =>
    intro pre rest acc cpos line fuel hplain hrest hcap
    have hpc : plainChar c = true := by
      simp only [plainStr, List.all_cons, Bool.and_eq_true] at hplain
      exact hplain.1
    have hct : plainStr ct = true := by
      simp only [plainStr, List.all_cons, Bool.and_eq_true] at hplain
      exact hplain.2
    obtain ⟨hc1, hc2, hc3, hc4⟩ : c ≠ '\\' ∧ c ≠ '\n' ∧ c ≠ '\x00' ∧ c ≠ '"' := by
      simpa [plainChar] using hpc
    have hget : (pre ++ c :: (ct ++ rest))[pre.length]? = some c :=
      get_append_cons pre (ct ++ rest) c
    have hlook : (pre ++ c :: (ct ++ rest))[pre.length + 1]? ≠ some '\n' := by
      rw [get_append_cons_succ]
      cases ct with
      | nil =>
        simp only [List.nil_append]
        exact hrest
      | cons d dt =>
        have hpd : plainChar d = true := by
          simp only [plainStr, List.all_cons, Bool.and_eq_true] at hct
          exact hct.1
        have hd2 : d ≠ '\n' := by
          simp only [plainChar, decide_eq_true_eq] at hpd
          exact hpd.2.1
        simp [hd2]
    have hstep : extract_string_step
        (simpleBuf (pre ++ c :: (ct ++ rest)) pre.length line) acc cpos =
        .cont (c :: acc) (cpos + 1)
          (simpleBuf (pre ++ c :: (ct ++ rest)) (pre.length + 1) line) := by
      have hcap' : cpos ≠ 1024 := by
        simp only [List.length_cons] at hcap; omega
      simp only [extract_string_step, LITERAL_STRING_MAX_SIZE,
        next_char_simpleBuf line hget, next_char_lookup_simpleBuf]
      simp [hcap', hc2, hc3, hc4, hlook]
    have hkey := ih (pre ++ [c]) rest (c :: acc) (cpos + 1) line fuel hct hrest
      (by simp only [List.length_cons] at hcap; omega)
    simp only [List.append_assoc, List.singleton_append, List.cons_append,
      List.nil_append, List.length_append, List.length_singleton] at hkey
    have hfuel : fuel + (c :: ct).length = (fuel + ct.length) + 1 := by
      simp only [List.length_cons]; omega
    simp only [List.append_assoc, List.cons_append]
    rw [hfuel, extract_string_loop_cont (fuel + ct.length) hstep, hkey]
    have e1 : pre.length + 1 + ct.length = pre.length + (c :: ct).length := by
      simp only [List.length_cons]; omega
    have e2 : ct.reverse ++ (c :: acc) = (c :: ct).reverse ++ acc := by
      simp
    have e3 : cpos + 1 + ct.length = cpos + (c :: ct).length := by
      simp only [List.length_cons]; omega
    rw [e1, e2, e3]

theorem remove_comments_block_loop_none (fuel : Nat) (buf : ReadBuffer) :
    remove_comments_block_loop (fuel + 1) none buf = some buf := rfl

theorem remove_comments_block_loop_some (fuel : Nat) (c : Char) (buf : ReadBuffer) :
    remove_comments_block_loop (fuel + 1) (some c) buf =
      if c = '*' ∧ (next_char_lookup buf).1 = some ')' then some buf
      else remove_comments_block_loop fuel (next_char buf).1 (next_char buf).2 := rfl

/-- Running the block-comment loop with no `*`-`)` pair ahead consumes the
whole remaining input and stops at EOF, returning the drained buffer. -/
theorem remove_comments_block_loop_noCloser :
    ∀ (suffix pre : List Char) (c : Char) (line fuel : Nat),
      hasCloser (c :: suffix) = false →
      suffix.length + 2 ≤ fuel →
      ∃ line2, remove_comments_block_loop fuel (some c)
          (simpleBuf (pre ++ suffix) pre.length line) =
        some (emptyBuf (pre ++ suffix) line2) := by
  intro suffix
  induction suffix with
  | nil =>
    intro pre c line fuel _ hf
    obtain ⟨f1, rfl⟩ : ∃ f1, fuel = f1 + 1 + 1 := ⟨fuel - 2, by omega⟩
    refine ⟨line, ?_⟩
    have hnil : pre ++ ([] : List Char) = pre := by simp
    rw [hnil]
    have hlook : (next_char_lookup (simpleBuf pre pre.length line)).1 = none := by
      rw [next_char_lookup_simpleBuf]
      simp [getElem?_self_len]
    rw [remove_comments_block_loop_some]
    have hnc : ¬ (c = '*' ∧
        (next_char_lookup (simpleBuf pre pre.length line)).1 = some ')') := by
      rw [hlook]
      rintro ⟨-, h⟩
      exact Option.noConfusion h
    rw [if_neg hnc, next_char_simpleBuf_end]
    exact remove_comments_block_loop_none f1 (emptyBuf pre line)
  | cons c' suffix' ih =>
    intro pre c line fuel hc hf
    obtain ⟨f1, rfl⟩ : ∃ f1, fuel = f1 + 1 := ⟨fuel - 1, by omega⟩
    rw [remove_comments_block_loop_some]
    have hget : (pre ++ c' :: suffix')[pre.length]? = some c' := get_append_cons _ _ _
    have hnc : ¬ (c = '*' ∧
        (next_char_lookup (simpleBuf (pre ++ c' :: suffix') pre.length line)).1 =
          some ')') := by
      rw [next_char_lookup_simpleBuf, hget]
      rintro ⟨h1, h2⟩
      have hcc : c' = ')' := Option.some.inj h2
      have habs : hasCloser (c :: c' :: suffix') = true := by
        rw [show hasCloser (c :: c' :: suffix') =
          ((decide (c = '*' ∧ c' = ')')) || hasCloser (c' :: suffix')) from rfl]
        simp [h1, hcc]
      rw [habs] at hc
      exact Bool.noConfusion hc
    rw [if_neg hnc, next_char_simpleBuf line hget]
    have hcloser' : hasCloser (c' :: suffix') = false := by
      cases hcase : hasCloser (c' :: suffix') with
      | false => rfl
      | true =>
        exfalso
        have habs : hasCloser (c :: c' :: suffix') = true := by
          rw [show hasCloser (c :: c' :: suffix') =
            ((decide (c = '*' ∧ c' = ')')) || hasCloser (c' :: suffix')) from rfl, hcase]
          simp
        rw [habs] at hc
        exact Bool.noConfusion hc
    have hkey := ih (pre ++ [c']) c' (if c' = '\n' then line + 1 else line) f1
      hcloser' (by simp only [List.length_cons] at hf; omega)
    simp only [List.append_assoc, List.singleton_append, List.length_append,
      List.length_singleton] at hkey
    exact hkey

theorem plainStr_replicate_a (n : Nat) : plainStr (List.replicate n 'a') = true := by
  rw [plainStr, List.all_eq_true]
  intro x hx
  rw [List.eq_of_mem_replicate hx]
  decide

/-- C4 counterexample: a string literal whose content is exactly 1024 bytes —
equal to the maximum, hence "at most the maximum" — is rejected: the length
check fires at the top of the loop iteration that would have consumed the
closing quote, and extraction aborts with exit code 4 instead of extracting
the content in full. -/
theorem C4_counterexample :
    extract_string 1040
      (simpleBuf ('"' :: (List.replicate 1024 'a' ++ ['"'])) 1 1) =
      some (.err 4) := by
  have hkey := extract_string_consume_plain (List.replicate 1024 'a') ['"'] ['"']
    [] 0 1 16 (plainStr_replicate_a 1024) (by simp) (by simp)
  simp only [List.append_assoc, List.cons_append, List.nil_append,
    List.length_singleton, List.length_replicate] at hkey
  norm_num at hkey
  show extract_string_loop 1040
    (simpleBuf ('"' :: (List.replicate 1024 'a' ++ ['"'])) 1 1) [] 0 = some (.err 4)
  rw [hkey]
  exact extract_string_loop_err 15 rfl

/-- C4 (amended): string-literal extraction fails with exit code 4 exactly
when the accumulated content REACHES the maximum of 1024 bytes, i.e. when
the content has 1024 bytes or more: every literal whose content is at most
1023 bytes is extracted in full without truncation, while a literal whose
content has 1024 bytes or more — including exactly 1024, which the original
claim counts as "at most the maximum" — aborts fatally with exit code 4
before looking at the closing quote.  (Stated for contents made of inert
characters, which is what decides the boundary.) -/
theorem C4_string_length_boundary (content rest : List Char) (line fuel : Nat)
    (hplain : plainStr content = true) :
    (content.length ≤ 1023 → content.length + 2 ≤ fuel →
       extract_string fuel
           (simpleBuf ('"' :: (content ++ '"' :: rest)) 1 line) =
         some (.ok content
           (simpleBuf ('"' :: (content ++ '"' :: rest)) (content.length + 2) line))) ∧
    (1024 ≤ content.length → 1025 ≤ fuel →
       extract_string fuel
           (simpleBuf ('"' :: (content ++ '"' :: rest)) 1 line) =
         some (.err 4)) := by
  constructor
  · intro hlen hfuel
    have hkey := extract_string_consume_plain content ['"'] ('"' :: rest) [] 0 line
      (fuel - content.length) hplain (by simp) (by omega)
    simp only [List.append_assoc, List.cons_append, List.nil_append,
      List.length_singleton] at hkey
    have hf : fuel - content.length + content.length = fuel := by omega
    rw [hf] at hkey
    show extract_string_loop fuel
      (simpleBuf ('"' :: (content ++ '"' :: rest)) 1 line) [] 0 = _
    rw [hkey]
    obtain ⟨f2, hf2⟩ : ∃ f2, fuel - content.length = f2 + 1 :=
      ⟨fuel - content.length - 1, by omega⟩
    rw [hf2]
    refine extract_string_loop_done f2 ?_
    have hget : ('"' :: (content ++ '"' :: rest))[1 + content.length]? =
        some '"' := by
      have h := get_append_cons (['"'] ++ content) rest '"'
      simpa [Nat.add_comm] using h
    have hprev : ('"' :: (content ++ '"' :: rest))[content.length]? ≠
        some '\\' := by
      cases content with
      | nil => simp
      | cons d dt =>
        rw [show ((d :: dt : List Char)).length = dt.length + 1 from rfl,
          List.getElem?_cons_succ,
          get_append_lt (d :: dt) ('"' :: rest) dt.length (by simp)]
        intro hEq
        have hpl := plainStr_get hplain hEq
        simp [plainChar] at hpl
    have hcap' : (0 + content.length) ≠ 1024 := by omega
    have hidx : 1 + content.length - 1 = content.length := by omega
    have hpos : 1 + content.length + 1 = content.length + 2 := by omega
    simp only [extract_string_step, LITERAL_STRING_MAX_SIZE, hcap',
      current_char_lookup_simpleBuf ('"' :: (content ++ '"' :: rest))
        (1 + content.length) line (by omega), hidx,
      next_char_simpleBuf line hget]
    simp [hprev, hpos]
  · intro hlen hfuel
    obtain ⟨t, d, htd, htlen⟩ : ∃ t d, content = t ++ d ∧ t.length = 1024 :=
      ⟨content.take 1024, content.drop 1024, (List.take_append_drop _ _).symm,
        by rw [List.length_take]; omega⟩
    have hpt : plainStr t = true := by
      rw [plainStr, List.all_eq_true]
      intro x hx
      rw [plainStr, List.all_eq_true] at hplain
      refine hplain x ?_
      rw [htd]
      exact List.mem_append_left d hx
    have hrest0 : (d ++ '"' :: rest)[0]? ≠ some '\n' := by
      cases hd : d with
      | nil => simp
      | cons e et =>
        simp only [List.cons_append, List.getElem?_cons_zero]
        intro hEq
        have he : plainChar e = true := by
          rw [plainStr, List.all_eq_true] at hplain
          refine hplain e ?_
          rw [htd, hd]
          exact List.mem_append_right t (by simp)
        rw [Option.some.inj hEq] at he
        simp [plainChar] at he
    have hkey := extract_string_consume_plain t ['"'] (d ++ '"' :: rest) [] 0 line
      (fuel - 1024) hpt hrest0 (by omega)
    simp only [List.append_assoc, List.cons_append, List.nil_append,
      List.length_singleton, htlen] at hkey
    rw [htd]
    have hgoal : ('"' :: ((t ++ d) ++ '"' :: rest) : List Char) =
        '"' :: (t ++ (d ++ '"' :: rest)) := by simp
    rw [hgoal]
    show extract_string_loop fuel
      (simpleBuf ('"' :: (t ++ (d ++ '"' :: rest))) 1 line) [] 0 = some (.err 4)
    have hfeq : extract_string_loop fuel
        (simpleBuf ('"' :: (t ++ (d ++ '"' :: rest))) 1 line) [] 0 =
        extract_string_loop (fuel - 1024 + 1024)
          (simpleBuf ('"' :: (t ++ (d ++ '"' :: rest))) 1 line) [] 0 := by
      have hf : fuel - 1024 + 1024 = fuel := by omega
      rw [hf]
    rw [hfeq, hkey]
    obtain ⟨f2, hf2⟩ : ∃ f2, fuel - 1024 = f2 + 1 := ⟨fuel - 1025, by omega⟩
    rw [hf2]
    exact extract_string_loop_err f2 rfl

theorem C4_string_length_boundary_witness :
    extract_string 10 (simpleBuf ('"' :: (['h', 'i'] ++ '"' :: [])) 1 1) =
      some (.ok ['h', 'i']
        (simpleBuf ('"' :: (['h', 'i'] ++ '"' :: [])) 4 1)) ∧
    extract_string 1025
      (simpleBuf ('"' :: (List.replicate 1024 'a' ++ '"' :: [])) 1 1) =
      some (.err 4) := by
  constructor
  · exact (C4_string_length_boundary ['h', 'i'] [] 1 10 (by decide)).1
      (by decide) (by decide)
  · exact (C4_string_length_boundary (List.replicate 1024 'a') [] 1 1025
      (plainStr_replicate_a 1024)).2 (by simp) (by omega)

/-- C6: a string literal that contains a null byte before its closing quote,
or that reaches end-of-input before its closing double-quote, makes string
extraction abort fatally with exit code 8 — stated for literals whose
content up to that point is made of inert characters and has at most 1023
bytes, so that no other fatal condition (length bound, newline rule) fires
first. -/
theorem C6_null_or_eof (content rest : List Char) (line fuel : Nat)
    (hplain : plainStr content = true) (hlen : content.length ≤ 1023)
    (hfuel : content.length + 2 ≤ fuel) :
    extract_string fuel
        (simpleBuf ('"' :: (content ++ '\x00' :: rest)) 1 line) =
      some (.err 8) ∧
    extract_string fuel (simpleBuf ('"' :: content) 1 line) = some (.err 8) := by
  constructor
  · have hkey := extract_string_consume_plain content ['"'] ('\x00' :: rest) [] 0
      line (fuel - content.length) hplain (by simp) (by omega)
    simp only [List.append_assoc, List.cons_append, List.nil_append,
      List.length_singleton] at hkey
    have hf : fuel - content.length + content.length = fuel := by omega
    rw [hf] at hkey
    show extract_string_loop fuel
      (simpleBuf ('"' :: (content ++ '\x00' :: rest)) 1 line) [] 0 = some (.err 8)
    rw [hkey]
    obtain ⟨f2, hf2⟩ : ∃ f2, fuel - content.length = f2 + 1 :=
      ⟨fuel - content.length - 1, by omega⟩
    rw [hf2]
    refine extract_string_loop_err f2 ?_
    have hget : ('"' :: (content ++ '\x00' :: rest))[1 + content.length]? =
        some '\x00' := by
      have h := get_append_cons (['"'] ++ content) rest '\x00'
      simpa [Nat.add_comm] using h
    have hcap' : (0 + content.length) ≠ 1024 := by omega
    simp only [extract_string_step, LITERAL_STRING_MAX_SIZE, hcap',
      next_char_simpleBuf line hget]
    simp
  · have hkey := extract_string_consume_plain content ['"'] [] [] 0 line
      (fuel - content.length) hplain (by simp) (by omega)
    simp only [List.append_assoc, List.cons_append, List.nil_append,
      List.length_singleton, List.append_nil] at hkey
    have hf : fuel - content.length + content.length = fuel := by omega
    rw [hf] at hkey
    show extract_string_loop fuel (simpleBuf ('"' :: content) 1 line) [] 0 =
      some (.err 8)
    rw [hkey]
    obtain ⟨f2, hf2⟩ : ∃ f2, fuel - content.length = f2 + 1 :=
      ⟨fuel - content.length - 1, by omega⟩
    rw [hf2]
    refine extract_string_loop_err f2 ?_
    have hend : next_char (simpleBuf ('"' :: content) (1 + content.length) line) =
        (none, emptyBuf ('"' :: content) line) := by
      have hlen1 : (('"' :: content : List Char)).length = 1 + content.length := by
        simp only [List.length_cons]
        omega
      rw [← hlen1]
      exact next_char_simpleBuf_end _ line
    have hcap' : (0 + content.length) ≠ 1024 := by omega
    simp only [extract_string_step, LITERAL_STRING_MAX_SIZE, hcap', hend]
    simp

theorem C6_null_or_eof_witness :
    extract_string 3 (simpleBuf ('"' :: (['a'] ++ '\x00' :: [])) 1 1) =
      some (.err 8) ∧
    extract_string 3 (simpleBuf ('"' :: ['a']) 1 1) = some (.err 8) := by
  constructor
  · exact (C6_null_or_eof ['a'] [] 1 3 (by decide) (by decide) (by decide)).1
  · exact (C6_null_or_eof ['a'] [] 1 3 (by decide) (by decide) (by decide)).2

theorem lexer_loop_comment_step (fuel : Nat) {buf0 buf1 buf2 : ReadBuffer}
    {acc : List Token} {c : Char}
    (h1 : next_char buf0 = (some c, buf1)) (h2 : iswhitespace c = false)
    (h3 : remove_comments fuel buf1 = some (true, buf2)) :
    lexer_loop (fuel + 1) buf0 acc = lexer_loop fuel buf2 acc := by
  simp only [lexer_loop, h1, h2, Bool.false_eq_true, if_false, h3]

theorem lexer_loop_eof (fuel : Nat) {buf0 buf1 : ReadBuffer} {acc : List Token}
    (h : next_char buf0 = (none, buf1)) :
    lexer_loop (fuel + 1) buf0 acc = some (.ok acc.reverse) := by
  simp only [lexer_loop, h]

theorem init_buffer_small (input : List Char) (h : input.length ≤ 4096) :
    init_buffer { bytes := input, fpos := 0 } = simpleBuf input 0 1 := by
  simp [init_buffer, fread_block, simpleBuf, INPUT_FILE_BLOCK_SIZE,
    List.take_of_length_le h]

/-- On input that opens a block comment whose closer never appears, the whole
`remove_comments` call consumes the rest of the input, reports success, and
leaves the buffer at end-of-input. -/
theorem remove_comments_unterminated (rest : List Char) (fuel : Nat)
    (hc : hasCloser ('*' :: rest) = false) (hf : rest.length + 4 ≤ fuel) :
    ∃ line2, remove_comments fuel (simpleBuf ('(' :: '*' :: rest) 1 1) =
      some (true, emptyBuf ('(' :: '*' :: rest) line2) := by
  obtain ⟨f1, rfl⟩ : ∃ f1, fuel = f1 + 1 := ⟨fuel - 1, by omega⟩
  have hcur : (current_char_lookup (simpleBuf ('(' :: '*' :: rest) 1 1)).1 =
      some '(' := by
    rw [current_char_lookup_simpleBuf _ _ _ (by omega)]
    simp
  have hlook2 : (next_char_lookup (simpleBuf ('(' :: '*' :: rest) 1 1)).1 =
      some '*' := by
    rw [next_char_lookup_simpleBuf]
    simp
  have hn : next_char (simpleBuf ('(' :: '*' :: rest) 1 1) =
      (some '*', simpleBuf ('(' :: '*' :: rest) 2 1) := by
    rw [next_char_simpleBuf 1 (show ('(' :: '*' :: rest)[1]? = some '*' by simp)]
    simp
  have hstep1 : remove_comments_block_loop (f1 + 1) (some '(')
      (simpleBuf ('(' :: '*' :: rest) 1 1) =
      remove_comments_block_loop f1 (some '*') (simpleBuf ('(' :: '*' :: rest) 2 1) := by
    rw [remove_comments_block_loop_some, if_neg ?_, hn]
    rintro ⟨h, -⟩
    exact absurd h (by decide)
  have hloop := remove_comments_block_loop_noCloser rest ['(', '*'] '*' 1 f1 hc
    (by omega)
  simp only [List.cons_append, List.nil_append, List.length_cons,
    List.length_nil] at hloop
  obtain ⟨line2, hloop⟩ := hloop
  refine ⟨line2, ?_⟩
  simp only [remove_comments, hcur, hlook2]
  rw [if_neg (by decide), if_pos (by decide)]
  simp only [hstep1, hloop, next_char_emptyBuf]

/-- C7: for inputs in which the block-comment opener `(*` is never followed
by a matching closer before end-of-input (no adjacent `*`, `)` pair in the
scanned characters), the scanner consumes the rest of the input as comment
and the scan completes successfully with no error, emitting no token for the
comment text. -/
theorem C7_unterminated_comment (rest : List Char) (fuel : Nat)
    (hc : hasCloser ('*' :: rest) = false) (hf : rest.length + 6 ≤ fuel) :
    lexer_loop fuel (simpleBuf ('(' :: '*' :: rest) 0 1) [] = some (.ok []) ∧
    (rest.length ≤ 4094 →
      lexer_run ('(' :: '*' :: rest) fuel = some (.ok [])) := by
  have hmain : lexer_loop fuel (simpleBuf ('(' :: '*' :: rest) 0 1) [] =
      some (.ok []) := by
    obtain ⟨f1, rfl⟩ : ∃ f1, fuel = f1 + 1 := ⟨fuel - 1, by omega⟩
    have hn0 : next_char (simpleBuf ('(' :: '*' :: rest) 0 1) =
        (some '(', simpleBuf ('(' :: '*' :: rest) 1 1) := by
      rw [next_char_simpleBuf 1 (show ('(' :: '*' :: rest)[0]? = some '(' by simp)]
      simp
    obtain ⟨line2, hrc⟩ := remove_comments_unterminated rest f1 hc (by omega)
    rw [lexer_loop_comment_step f1 hn0 (by decide) hrc]
    obtain ⟨f2, rfl⟩ : ∃ f2, f1 = f2 + 1 := ⟨f1 - 1, by omega⟩
    rw [lexer_loop_eof f2 (next_char_emptyBuf _ _)]
    rfl
  refine ⟨hmain, fun hlen => ?_⟩
  rw [lexer_run, init_buffer_small _ (by simp only [List.length_cons]; omega)]
  exact hmain

theorem C7_unterminated_comment_witness :
    hasCloser ('*' :: [' ', 'x']) = false ∧
    lexer_run ('(' :: '*' :: [' ', 'x']) 20 = some (.ok []) := by
  refine ⟨by decide, ?_⟩
  exact (C7_unterminated_comment [' ', 'x'] 20 (by decide) (by decide)).2 (by decide)

theorem C5_newline_lookahead_witness :
    extract_string_step (simpleBuf ['"', 'a', '\n'] 1 1) [] 0 = .err 9 ∧
    extract_string_step (simpleBuf ['"', '\\', '\n', 'x'] 1 1) [] 0 =
      .cont [] 0 (simpleBuf ['"', '\\', '\n', 'x'] 3 2) ∧
    extract_string_step (simpleBuf ['"', '\n', 'x'] 1 1) [] 0 =
      .cont ['\n'] 1 (simpleBuf ['"', '\n', 'x'] 2 2) := by
  refine ⟨?_, ?_, ?_⟩
  · exact (C5_newline_lookahead ['"', 'a', '\n'] 1 1 0 [] 'a' (by decide) (by decide)).1
      (by decide) (by decide) (by decide) (by decide)
  · exact (C5_newline_lookahead ['"', '\\', '\n', 'x'] 1 1 0 [] '\\' (by decide)
      (by decide)).2.1 rfl (by decide)
  · exact (C5_newline_lookahead ['"', '\n', 'x'] 1 1 0 [] '\n' (by decide)
      (by decide)).2.2 rfl (by decide)

end CoolLexer
